import Mathlib

/-!
Verification of the analytics engine of the Crystallization-Dashboard repository.

The Python source (src/app/data_utils.py, src/app/figures.py, src/app/callbacks.py)
is shallowly embedded here:
  * Python strings are processed as `List Char` (Lean's `String` API does not reduce
    in the kernel); record fields keep `String` where only equality is needed.
  * pandas Series/DataFrames become Lean lists; a missing value (NaN / None / NULL)
    is `Option.none`.
  * Python floats become `ℚ` where the code only does field arithmetic and
    comparisons, and `ℝ` for the KDE (which uses exp / sqrt / powers).
  * pandas `sort_values` (numpy quicksort, whose order on ties is unspecified) is
    determinized as a stable sort: ties keep their previous order, which for a
    `groupby` result is the key-ascending order.
-/

attribute [local semireducible] Rat.add Rat.sub Rat.mul Rat.inv Rat.ofScientific

namespace CrystEDA

/-! ### Python string primitives over `List Char` -/

/-- Python `str.strip()`: remove leading and trailing whitespace. -/
def pyStrip (cs : List Char) : List Char :=
  ((cs.dropWhile Char.isWhitespace).reverse.dropWhile Char.isWhitespace).reverse

/-- Python `str.upper()` (ASCII). -/
def pyUpper (cs : List Char) : List Char := cs.map Char.toUpper

/-- Python `str.lower()` (ASCII). -/
def pyLower (cs : List Char) : List Char := cs.map Char.toLower

/-- Auxiliary for `removeSub`, with explicit fuel (the fuel is the length of the
remaining text, enough because a non-empty pattern consumes at least one char). -/
def removeSubAux (pat : List Char) : ℕ → List Char → List Char
  | 0, _ => []
  | _, [] => []
  | Nat.succ n, c :: cs =>
      if pat.isPrefixOf (c :: cs) then removeSubAux pat n ((c :: cs).drop pat.length)
      else c :: removeSubAux pat n cs

/-- Python `s.replace(pat, "")` for a non-empty pattern: delete every (left-to-right,
non-overlapping) occurrence of `pat`. -/
def removeSub (pat cs : List Char) : List Char := removeSubAux pat cs.length cs

/-- Lexicographic strict order on char lists (Python string `<`). -/
def lexLt : List Char → List Char → Bool
  | [], [] => false
  | [], _ :: _ => true
  | _ :: _, [] => false
  | a :: as, b :: bs => if a = b then lexLt as bs else decide (a < b)

/-- Lexicographic order on char lists (Python string `<=`). -/
def lexLe (a b : List Char) : Bool := lexLt a b || a == b

/-! ### A stable insertion sort (determinization of pandas `sort_values`) -/

/-- Insert `x` in front of the first element `y` with `le x y`. When `le` is a
total preorder this realizes a stable sort step: an element equivalent to `x`
that is already in the list ends up after `x` exactly when `le x y` holds. -/
def insertLe {α : Type} (le : α → α → Bool) (x : α) : List α → List α
  | [] => [x]
  | y :: ys => if le x y then x :: y :: ys else y :: insertLe le x ys

/-- Stable insertion sort with respect to the boolean relation `le`. -/
def insSort {α : Type} (le : α → α → Bool) : List α → List α
  | [] => []
  | x :: xs => insertLe le x (insSort le xs)

theorem mem_insertLe {α : Type} (le : α → α → Bool) (x : α) (l : List α) (z : α) :
    z ∈ insertLe le x l ↔ z = x ∨ z ∈ l := by
  induction l with
  | nil => simp [insertLe]
  | cons y ys ih =>
    by_cases h : le x y = true
    · simp [insertLe, h]
    · simp only [insertLe, h]
      simp [ih]
      tauto

theorem insertLe_perm {α : Type} (le : α → α → Bool) (x : α) (l : List α) :
    (insertLe le x l).Perm (x :: l) := by
  induction l with
  | nil => simp [insertLe]
  | cons y ys ih =>
    by_cases h : le x y = true
    · simp [insertLe, h]
    · simp only [insertLe, h, if_false]
      exact (ih.cons y).trans (List.Perm.swap x y ys)

theorem insSort_perm {α : Type} (le : α → α → Bool) (l : List α) :
    (insSort le l).Perm l := by
  induction l with
  | nil => simp [insSort]
  | cons x xs ih => exact (insertLe_perm le x (insSort le xs)).trans (ih.cons x)

theorem insSort_mem {α : Type} (le : α → α → Bool) (l : List α) (z : α) :
    z ∈ insSort le l ↔ z ∈ l := (insSort_perm le l).mem_iff

theorem insertLe_pairwise {α : Type} (le : α → α → Bool)
    (htot : ∀ a b, le a b = true ∨ le b a = true)
    (htrans : ∀ a b c, le a b = true → le b c = true → le a c = true)
    (x : α) (l : List α) (hl : l.Pairwise (fun a b => le a b = true)) :
    (insertLe le x l).Pairwise (fun a b => le a b = true) := by
  induction l with
  | nil => simp [insertLe]
  | cons y ys ih =>
    rw [List.pairwise_cons] at hl
    obtain ⟨hy, hys⟩ := hl
    by_cases h : le x y = true
    · have step : insertLe le x (y :: ys) = x :: y :: ys := by simp [insertLe, h]
      rw [step, List.pairwise_cons]
      refine ⟨?_, List.pairwise_cons.mpr ⟨hy, hys⟩⟩
      intro z hz
      rcases List.mem_cons.mp hz with hzy | hz
      · rw [hzy]
        exact h
      · exact htrans x y z h (hy z hz)
    · have step : insertLe le x (y :: ys) = y :: insertLe le x ys := by
        simp [insertLe, h]
      rw [step, List.pairwise_cons]
      refine ⟨?_, ih hys⟩
      intro z hz
      rcases (mem_insertLe le x ys z).mp hz with hzx | hz
      · rw [hzx]
        rcases htot x y with h1 | h1
        · exact absurd h1 h
        · exact h1
      · exact hy z hz

theorem insSort_pairwise {α : Type} (le : α → α → Bool)
    (htot : ∀ a b, le a b = true ∨ le b a = true)
    (htrans : ∀ a b c, le a b = true → le b c = true → le a c = true)
    (l : List α) : (insSort le l).Pairwise (fun a b => le a b = true) := by
  induction l with
  | nil => simp [insSort]
  | cons x xs ih => exact insertLe_pairwise le htot htrans x (insSort le xs) ih

/-- Stability of the descending-by-key insertion sort: if the input is pairwise
`R`, elements with equal keys stay in `R`-order, and distinct keys come out
strictly descending. -/
theorem insertLe_key_lex {α : Type} (key : α → ℕ) (R : α → α → Prop)
    (x : α) (l : List α)
    (hl : l.Pairwise (fun a b => key b < key a ∨ (key a = key b ∧ R a b)))
    (hx : ∀ y ∈ l, R x y) :
    (insertLe (fun a b => decide (key b ≤ key a)) x l).Pairwise
      (fun a b => key b < key a ∨ (key a = key b ∧ R a b)) := by
  induction l with
  | nil => simp [insertLe]
  | cons y ys ih =>
    rw [List.pairwise_cons] at hl
    obtain ⟨hy, hys⟩ := hl
    by_cases h : key y ≤ key x
    · have hxy : key y < key x ∨ (key x = key y ∧ R x y) := by
        rcases lt_or_eq_of_le h with h1 | h1
        · exact Or.inl h1
        · exact Or.inr ⟨h1.symm, hx y (by simp)⟩
      have step : insertLe (fun a b => decide (key b ≤ key a)) x (y :: ys)
          = x :: y :: ys := by
        simp [insertLe, h]
      rw [step, List.pairwise_cons]
      refine ⟨?_, List.pairwise_cons.mpr ⟨hy, hys⟩⟩
      intro z hz
      rcases List.mem_cons.mp hz with hzy | hz
      · rw [hzy]
        exact hxy
      · have hyz := hy z hz
        have hzy : key z ≤ key y := by
          rcases hyz with h2 | h2
          · exact le_of_lt h2
          · exact le_of_eq h2.1.symm
        rcases lt_or_eq_of_le (le_trans hzy h) with h3 | h3
        · exact Or.inl h3
        · exact Or.inr ⟨h3.symm, hx z (List.mem_cons.mpr (Or.inr hz))⟩
    · have hx2 : key x < key y := lt_of_not_le h
      have step : insertLe (fun a b => decide (key b ≤ key a)) x (y :: ys)
          = y :: insertLe (fun a b => decide (key b ≤ key a)) x ys := by
        simp [insertLe, h]
      rw [step, List.pairwise_cons]
      refine ⟨?_, ih hys (fun z hz => hx z (List.mem_cons.mpr (Or.inr hz)))⟩
      intro z hz
      rcases (mem_insertLe _ x ys z).mp hz with hzx | hz
      · rw [hzx]
        exact Or.inl hx2
      · exact hy z hz

theorem insSort_key_lex {α : Type} (key : α → ℕ) (R : α → α → Prop)
    (l : List α) (hl : l.Pairwise R) :
    (insSort (fun a b => decide (key b ≤ key a)) l).Pairwise
      (fun a b => key b < key a ∨ (key a = key b ∧ R a b)) := by
  induction l with
  | nil => simp [insSort]
  | cons x xs ih =>
    rw [List.pairwise_cons] at hl
    obtain ⟨hx, hxs⟩ := hl
    refine insertLe_key_lex key R x _ (ih hxs) ?_
    intro y hy
    exact hx y ((insSort_mem _ xs y).mp hy)

theorem lexLt_trans (a b c : List Char) (h1 : lexLt a b = true)
    (h2 : lexLt b c = true) : lexLt a c = true := by
  induction a generalizing b c with
  | nil =>
    cases b with
    | nil => simp [lexLt] at h1
    | cons y ys =>
      cases c with
      | nil => simp [lexLt] at h2
      | cons z zs => simp [lexLt]
  | cons x xs ih =>
    cases b with
    | nil => simp [lexLt] at h1
    | cons y ys =>
      cases c with
      | nil => simp [lexLt] at h2
      | cons z zs =>
        simp only [lexLt] at h1 h2 ⊢
        by_cases hxy : x = y
        · by_cases hyz : y = z
          · have hxz : x = z := hxy.trans hyz
            rw [if_pos hxy] at h1
            rw [if_pos hyz] at h2
            rw [if_pos hxz]
            exact ih ys zs h1 h2
          · rw [if_neg hyz] at h2
            have hlt : y < z := of_decide_eq_true h2
            have hxz : x ≠ z := by rw [hxy]; exact ne_of_lt hlt
            rw [if_neg hxz]
            exact decide_eq_true (hxy ▸ hlt)
        · rw [if_neg hxy] at h1
          have hlt1 : x < y := of_decide_eq_true h1
          by_cases hyz : y = z
          · have hxz : x ≠ z := hyz ▸ ne_of_lt hlt1
            rw [if_neg hxz]
            exact decide_eq_true (hyz ▸ hlt1)
          · rw [if_neg hyz] at h2
            have hlt2 : y < z := of_decide_eq_true h2
            have hlt : x < z := lt_trans hlt1 hlt2
            rw [if_neg (ne_of_lt hlt)]
            exact decide_eq_true hlt

theorem lexLe_total (a b : List Char) : lexLe a b = true ∨ lexLe b a = true := by
  induction a generalizing b with
  | nil =>
    cases b with
    | nil => left; simp [lexLe]
    | cons y ys => left; simp [lexLe, lexLt]
  | cons x xs ih =>
    cases b with
    | nil => right; simp [lexLe, lexLt]
    | cons y ys =>
      by_cases hxy : x = y
      · subst hxy
        rcases ih ys with h | h
        · left; simpa [lexLe, lexLt] using h
        · right; simpa [lexLe, lexLt] using h
      · rcases lt_trichotomy x y with h | h | h
        · left; simp [lexLe, lexLt, if_neg hxy, h]
        · exact absurd h hxy
        · right
          simp [lexLe, lexLt, if_neg (Ne.symm hxy), h]

theorem lexLe_trans (a b c : List Char) (h1 : lexLe a b = true)
    (h2 : lexLe b c = true) : lexLe a c = true := by
  simp only [lexLe, Bool.or_eq_true, beq_iff_eq] at h1 h2 ⊢
  rcases h1 with h1 | h1
  · rcases h2 with h2 | h2
    · exact Or.inl (lexLt_trans a b c h1 h2)
    · exact Or.inl (h2 ▸ h1)
  · rcases h2 with h2 | h2
    · exact Or.inl (h1 ▸ h2)
    · exact Or.inr (h1.trans h2)

theorem lexLe_of_ne (a b : List Char) (hle : lexLe a b = true) (hne : a ≠ b) :
    lexLt a b = true := by
  simp only [lexLe, Bool.or_eq_true, beq_iff_eq] at hle
  rcases hle with h | h
  · exact h
  · exact absurd h hne

/-! ### Small counting helpers -/

/-- Sum of a 0/1 indicator over a list counts the satisfying elements. -/
theorem sum_indicator_eq_length_filter {α : Type} (p : α → Bool) (l : List α) :
    (l.map (fun a => if p a then (1 : ℕ) else 0)).sum = (l.filter p).length := by
  induction l with
  | nil => simp
  | cons x xs ih =>
    by_cases h : p x
    · simp [List.filter_cons, h, ih, Nat.add_comm]
    · simp [List.filter_cons, h, ih]

/-! ### Records (rows of the `conditions` table used by the engine) -/

/-- A row of the co-occurrence / overview queries: `Protein_ID` (always present)
and `Standardized_Precipitate` (nullable). -/
structure CoRec where
  protein : String
  chem : Option String
deriving DecidableEq, Repr

/-- A row of the concentration columns: `Concentration_Unit`,
`Concentration_Value`, `Concentration_Converted` (all nullable). -/
structure CRec where
  unit : Option String
  value : Option ℚ
  converted : Option ℚ
deriving DecidableEq, Repr

/-! ### Unit Normalizer (data_utils.py, `concentration_series_mm_and_pct`) -/

/-- The unit after `fillna("").astype(str).str.strip()`. -/
def unitStrOf (r : CRec) : List Char := pyStrip (r.unit.getD "").toList

/-- The stripped unit lower-cased (`unit.str.lower()`). -/
def unitLowerOf (r : CRec) : List Char := pyLower (unitStrOf r)

/-- Embedding of `concentration_series_mm_and_pct`, mM series: the
`Concentration_Value` of rows whose lower-cased unit is `"mm"`, followed by the
`Concentration_Converted` of rows whose lower-cased unit is neither `"mm"` nor
`"%"` (pandas `concat` with `ignore_index`); `none` models NaN entries. -/
def mm_series (d : List CRec) : List (Option ℚ) :=
  (d.filter (fun r => unitLowerOf r == ['m', 'm'])).map CRec.value
    ++ (d.filter
        (fun r => !(unitLowerOf r == ['m', 'm']) && !(unitLowerOf r == ['%']))).map
      CRec.converted

/-- Embedding of `concentration_series_mm_and_pct`, percent series: the
`Concentration_Value` of rows whose stripped unit is exactly `"%"`. -/
def pct_series (d : List CRec) : List (Option ℚ) :=
  (d.filter (fun r => unitStrOf r == ['%'])).map CRec.value

/-- Embedding of `concentration_series_mm_and_pct` (the returned pair). -/
def concentration_series_mm_and_pct (d : List CRec) :
    List (Option ℚ) × List (Option ℚ) := (mm_series d, pct_series d)

/-- The numeric contributions of the mM series (downstream consumers drop NaN:
`pd.to_numeric(...).dropna()`). -/
def millimolar_values (d : List CRec) : List ℚ := (mm_series d).filterMap id

/-- The numeric contributions of the percent series. -/
def percent_values (d : List CRec) : List ℚ := (pct_series d).filterMap id

/-- C2, counterexample. The claim says a record with missing unit contributes to
neither bucket, and that a value reaches `percent_values` only when the unit is
exactly `"%"`. In the code a missing unit becomes the empty string (`fillna("")`),
which is neither `"mm"` nor `"%"`, so the record's `Concentration_Converted`
lands in the millimolar bucket; and the unit is stripped before the `"%"`
comparison, so a unit of `" % "` does reach the percent bucket. -/
theorem claim_C2_counterexample :
    millimolar_values [⟨none, none, some 5⟩] = [5] ∧
    percent_values [⟨some " % ", some 7, none⟩] = [7] := by decide

/-- C2 (amended): a record's `concentration_value` goes to `millimolar_values`
when its unit, trimmed and lower-cased, equals `"mm"`; its
`concentration_converted` goes to `millimolar_values` (never to
`percent_values`) when its trimmed lower-cased unit is neither `"mm"` nor `"%"`
-- a missing unit is treated as the empty string and therefore falls in this
case, contributing its converted value when present and nothing otherwise; its
`concentration_value` goes to `percent_values` exactly when its trimmed unit
equals `"%"`. -/
theorem claim_C2_amended (d : List CRec) :
    (∀ r ∈ d, unitLowerOf r = ['m', 'm'] → ∀ v, r.value = some v →
      v ∈ millimolar_values d) ∧
    (∀ r ∈ d, unitLowerOf r ≠ ['m', 'm'] → unitLowerOf r ≠ ['%'] → ∀ v,
      r.converted = some v → v ∈ millimolar_values d) ∧
    (∀ r ∈ d, unitStrOf r = ['%'] → ∀ v, r.value = some v →
      v ∈ percent_values d) ∧
    (∀ v ∈ percent_values d, ∃ r ∈ d, unitStrOf r = ['%'] ∧ r.value = some v) ∧
    (∀ v ∈ millimolar_values d, ∃ r ∈ d,
      (unitLowerOf r = ['m', 'm'] ∧ r.value = some v) ∨
      (unitLowerOf r ≠ ['m', 'm'] ∧ unitLowerOf r ≠ ['%'] ∧
        r.converted = some v)) := by
  refine ⟨?_, ?_, ?_, ?_, ?_⟩
  · intro r hr hu v hv
    simp only [millimolar_values, mm_series, List.filterMap_append,
      List.mem_append, List.mem_filterMap, List.mem_map, List.mem_filter]
    exact Or.inl ⟨r.value, ⟨r, ⟨hr, by simp [hu]⟩, rfl⟩, by simp [hv]⟩
  · intro r hr hu1 hu2 v hv
    simp only [millimolar_values, mm_series, List.filterMap_append,
      List.mem_append, List.mem_filterMap, List.mem_map, List.mem_filter]
    exact Or.inr ⟨r.converted, ⟨r, ⟨hr, by simp [hu1, hu2]⟩, rfl⟩, by simp [hv]⟩
  · intro r hr hu v hv
    simp only [percent_values, pct_series, List.mem_filterMap, List.mem_map,
      List.mem_filter]
    exact ⟨r.value, ⟨r, ⟨hr, by simp [hu]⟩, rfl⟩, by simp [hv]⟩
  · intro v hv
    simp only [percent_values, pct_series, List.mem_filterMap, List.mem_map,
      List.mem_filter] at hv
    obtain ⟨o, ⟨r, ⟨hr, hu⟩, rfl⟩, hov⟩ := hv
    exact ⟨r, hr, by simpa using hu, hov⟩
  · intro v hv
    simp only [millimolar_values, mm_series, List.filterMap_append,
      List.mem_append, List.mem_filterMap, List.mem_map, List.mem_filter] at hv
    rcases hv with ⟨o, ⟨r, ⟨hr, hu⟩, rfl⟩, hov⟩ | ⟨o, ⟨r, ⟨hr, hu⟩, rfl⟩, hov⟩
    · exact ⟨r, hr, Or.inl ⟨by simpa using hu, hov⟩⟩
    · refine ⟨r, hr, Or.inr ⟨?_, ?_, hov⟩⟩
      · simpa using (Bool.and_eq_true_iff.mp hu).1
      · simpa using (Bool.and_eq_true_iff.mp hu).2

/-- C2 witness: the amended theorem applied at concrete one-row record sets. -/
theorem claim_C2_amended_witness :
    (3 : ℚ) ∈ millimolar_values [⟨some "mM", some 3, none⟩] ∧
    (5 : ℚ) ∈ millimolar_values [⟨none, none, some 5⟩] ∧
    (7 : ℚ) ∈ percent_values [⟨some "%", some 7, none⟩] := by
  refine ⟨?_, ?_, ?_⟩
  · exact (claim_C2_amended [⟨some "mM", some 3, none⟩]).1
      ⟨some "mM", some 3, none⟩ (by simp) (by decide) 3 rfl
  · exact (claim_C2_amended [⟨none, none, some 5⟩]).2.1
      ⟨none, none, some 5⟩ (by simp) (by decide) (by decide) 5 rfl
  · exact (claim_C2_amended [⟨some "%", some 7, none⟩]).2.2.1
      ⟨some "%", some 7, none⟩ (by simp) (by decide) 7 rfl

/-! ### pH parsing (data_utils.py, `parse_ph_series`) -/

/-- True when every char is an ASCII digit. -/
def allDigits (cs : List Char) : Bool := cs.all Char.isDigit

/-- Numeric value of a digit string (most significant first). -/
def digitsVal (cs : List Char) : ℕ :=
  cs.foldl (fun a c => 10 * a + (c.toNat - 48)) 0

/-- Parse an unsigned decimal mantissa: `digits`, `digits.digits`, `digits.`,
or `.digits` (at least one digit in total), as Python `float` accepts. -/
def parseMantissa (cs : List Char) : Option ℚ :=
  match cs.splitOn '.' with
  | [ip] => if !ip.isEmpty && allDigits ip then some (digitsVal ip) else none
  | [ip, fp] =>
      if (!ip.isEmpty || !fp.isEmpty) && allDigits ip && allDigits fp then
        some ((digitsVal ip : ℚ) + (digitsVal fp : ℚ) / 10 ^ fp.length)
      else none
  | _ => none

/-- Parse an exponent: optional sign, then at least one digit. -/
def parseExpPart (cs : List Char) : Option ℤ :=
  match cs with
  | '+' :: r => if !r.isEmpty && allDigits r then some (digitsVal r) else none
  | '-' :: r => if !r.isEmpty && allDigits r then some (-(digitsVal r : ℤ)) else none
  | r => if !r.isEmpty && allDigits r then some (digitsVal r) else none

/-- Model of Python `float(str)` on decimal literals with upper-case exponent
marker (the caller upper-cases first): optional sign, decimal mantissa,
optional `E`-exponent; surrounding whitespace tolerated; anything else
(including `INF` / `NAN` words, which cannot denote a real pH) is a parse
failure. -/
def pyFloatList (cs0 : List Char) : Option ℚ :=
  let cs1 := pyStrip cs0
  let signAndRest : Bool × List Char :=
    match cs1 with
    | '+' :: r => (false, r)
    | '-' :: r => (true, r)
    | r => (false, r)
  let neg := signAndRest.1
  let cs := signAndRest.2
  match cs.splitOn 'E' with
  | [m] => (parseMantissa m).map (fun v => if neg then -v else v)
  | [m, e] =>
      match parseMantissa m, parseExpPart e with
      | some v, some ex => some ((if neg then -v else v) * (10 : ℚ) ^ ex)
      | _, _ => none
  | _ => none

/-- Embedding of the inner `_one` of `parse_ph_series`: `None` stays missing;
otherwise strip, upper-case, and when the result starts with `"PH"` delete every
`"PH"` occurrence (`x.replace("PH", "")`) and strip again, then parse as a float;
any parse failure yields `none`. A numeric raw field arrives as its Python
`str()` rendering. -/
def parse_ph_one : Option String → Option ℚ
  | none => none
  | some s =>
      let x := pyUpper (pyStrip s.toList)
      pyFloatList (if ['P', 'H'].isPrefixOf x then pyStrip (removeSub ['P', 'H'] x) else x)

/-- Embedding of `parse_ph_series` (elementwise application over the column). -/
def parse_ph_series (l : List (Option String)) : List (Option ℚ) :=
  l.map parse_ph_one

/-- Modelled from the spec: the claim's pH parser, which removes only a LEADING
`"PH"` token (the first two chars) rather than every `"PH"` occurrence; used to
compare the claim's wording with the source behavior. -/
def parse_ph_claim : Option String → Option ℚ
  | none => none
  | some s =>
      let x := pyUpper (pyStrip s.toList)
      pyFloatList (if ['P', 'H'].isPrefixOf x then pyStrip (x.drop 2) else x)

/-- C6, counterexample. The claim says parsing removes a leading `"PH"` token and
parses the remainder, which would exclude `"PH7PH"` (remainder `"7PH"` is not a
number); the code removes every `"PH"` occurrence and returns 7.0. -/
theorem claim_C6_counterexample :
    parse_ph_one (some "PH7PH") = some 7 ∧
    parse_ph_claim (some "PH7PH") = none := by decide

/-- C6 (amended): parsing strips whitespace, upper-cases, and -- when the string
starts with `"PH"` -- removes every occurrence of `"PH"` (not only a leading
token) and strips again, then parses the remainder as a float; unparsable or
missing values yield no value (never zero). `"PH 7.5"` parses to 7.5,
`"garbage"` is excluded, and the number 7.0 (rendered `"7.0"`) parses to 7.0. -/
theorem claim_C6_amended :
    parse_ph_one none = none ∧
    parse_ph_one (some "PH 7.5") = some (15/2) ∧
    parse_ph_one (some "garbage") = none ∧
    parse_ph_one (some "7.0") = some 7 ∧
    parse_ph_one (some " ph 8 ") = some 8 ∧
    (∀ s : String, parse_ph_one (some s) =
      pyFloatList
        (if ['P', 'H'].isPrefixOf (pyUpper (pyStrip s.toList)) then
          pyStrip (removeSub ['P', 'H'] (pyUpper (pyStrip s.toList)))
        else pyUpper (pyStrip s.toList))) ∧
    (∀ l : List (Option String), parse_ph_series l = l.map parse_ph_one) := by
  refine ⟨rfl, by decide, by decide, by decide, by decide, ?_, fun l => rfl⟩
  intro s
  rfl

/-! ### Sequence length and amino-acid composition (data_utils.py) -/

/-- A Python value handed to `compute_sequence_length`: `None`, a string, or a
value of any other type (the code guards with `not fasta or not
isinstance(fasta, str)`). -/
inductive PyVal where
  | null : PyVal
  | str (s : String) : PyVal
  | nonStr : PyVal
deriving DecidableEq

/-- Embedding of `compute_sequence_length`: 0 for `None`, non-strings and the
empty string; otherwise the length of `"".join(fasta.split())`, i.e. the number
of characters left after removing all whitespace. -/
def compute_sequence_length : PyVal → ℕ
  | .null => 0
  | .nonStr => 0
  | .str s =>
      if s = "" then 0 else (s.toList.filter (fun c => !c.isWhitespace)).length

/-- C10: `compute_sequence_length` is total, returns 0 for `None`, the empty
string and non-strings, and for every string returns the number of characters
left after removing all whitespace (including newlines); e.g. `"AB\nC D"` has
length 4. -/
theorem claim_C10_total_sequence_length :
    compute_sequence_length .null = 0 ∧
    compute_sequence_length .nonStr = 0 ∧
    compute_sequence_length (.str "") = 0 ∧
    (∀ s : String, compute_sequence_length (.str s)
      = (s.toList.filter (fun c => !c.isWhitespace)).length) ∧
    compute_sequence_length (.str "AB\nC D") = 4 := by
  refine ⟨rfl, rfl, by decide, ?_, by decide⟩
  intro s
  by_cases h : s = ""
  · subst h
    decide
  · simp [compute_sequence_length, h]

/-- The 20 standard amino-acid letters (the string `"ACDEFGHIKLMNPQRSTVWY"`). -/
def aas : List Char :=
  ['A', 'C', 'D', 'E', 'F', 'G', 'H', 'I', 'K', 'L',
   'M', 'N', 'P', 'Q', 'R', 'S', 'T', 'V', 'W', 'Y']

/-- The cleaned sequence `"".join(fasta.split()).upper()`. -/
def cleanSeq (fasta : String) : List Char :=
  pyUpper (fasta.toList.filter (fun c => !c.isWhitespace))

/-- Embedding of `compute_aa_composition`: `Counter` over the cleaned sequence,
`total = sum(counts.values())`, then each standard letter maps to
`counts.get(aa, 0) / total`; all-zero when `total == 0`. -/
def compute_aa_composition (fasta : String) : List (Char × ℚ) :=
  let seq := cleanSeq fasta
  let total := (seq.dedup.map (fun c => seq.count c)).sum
  if total = 0 then aas.map (fun a => (a, (0 : ℚ)))
  else aas.map (fun a => (a, (seq.count a : ℚ) / (total : ℚ)))

theorem sum_map_ite_eq_zero {α : Type} [DecidableEq α] (l : List α) (c : α)
    (hc : c ∉ l) : (l.map (fun a => if c = a then (1 : ℕ) else 0)).sum = 0 := by
  induction l with
  | nil => simp
  | cons x xs ih =>
    have hxc : c ≠ x := by
      intro h
      exact hc (h ▸ List.mem_cons_self x xs)
    simp only [List.map_cons, List.sum_cons, if_neg hxc]
    simpa using ih (fun h => hc (List.mem_cons.mpr (Or.inr h)))

theorem sum_map_ite_eq_one {α : Type} [DecidableEq α] (l : List α) (c : α)
    (hn : l.Nodup) (hc : c ∈ l) :
    (l.map (fun a => if c = a then (1 : ℕ) else 0)).sum = 1 := by
  induction l with
  | nil => simp at hc
  | cons x xs ih =>
    rw [List.nodup_cons] at hn
    rcases List.mem_cons.mp hc with hcx | hc2
    · simp only [List.map_cons, List.sum_cons, if_pos hcx]
      rw [sum_map_ite_eq_zero xs c (hcx ▸ hn.1)]
    · have hxc : c ≠ x := by
        intro h
        exact hn.1 (h ▸ hc2)
      simp only [List.map_cons, List.sum_cons, if_neg hxc]
      simpa using ih hn.2 hc2

theorem sum_map_add_nat {α : Type} (l : List α) (f g : α → ℕ) :
    (l.map (fun a => f a + g a)).sum = (l.map f).sum + (l.map g).sum := by
  induction l with
  | nil => simp
  | cons x xs ih =>
    simp only [List.map_cons, List.sum_cons, ih]
    omega

/-- Summing the counts of the members of a duplicate-free list that covers `s`
recovers the length of `s`. -/
theorem sum_map_count_eq_length {α : Type} [DecidableEq α] (l s : List α)
    (hn : l.Nodup) (hcov : ∀ c ∈ s, c ∈ l) :
    (l.map (fun a => s.count a)).sum = s.length := by
  induction s with
  | nil => simp
  | cons c s ih =>
    have step : (l.map (fun a => (c :: s).count a))
        = l.map (fun a => s.count a + if c = a then 1 else 0) := by
      refine List.map_congr_left ?_
      intro a _
      rw [List.count_cons]
      simp only [beq_iff_eq]
    rw [step, sum_map_add_nat l (fun a => s.count a) (fun a => if c = a then 1 else 0),
      ih (fun d hd => hcov d (List.mem_cons.mpr (Or.inr hd))),
      sum_map_ite_eq_one l c hn (hcov c (List.mem_cons_self c s))]
    simp [Nat.add_comm]

theorem cast_sum_map_count (l s : List Char) :
    (l.map (fun a => (s.count a : ℚ))).sum
      = ((l.map (fun a => s.count a)).sum : ℚ) := by
  induction l with
  | nil => simp
  | cons x xs ih => simp [ih]

/-- C7: each of the 20 standard letters maps to `count / total` where the
denominator is the full residue count (non-standard letters included); when the
cleaned sequence is empty, every fraction is 0 (no division error); when it
contains only standard letters the 20 fractions sum to 1; and `"AAAC"` yields
A = 0.75, C = 0.25, all others 0. -/
theorem claim_C7_aa_composition :
    (∀ fasta : String, cleanSeq fasta ≠ [] →
      compute_aa_composition fasta
        = aas.map (fun a =>
            (a, ((cleanSeq fasta).count a : ℚ) / ((cleanSeq fasta).length : ℚ)))) ∧
    (∀ fasta : String, cleanSeq fasta = [] →
      compute_aa_composition fasta = aas.map (fun a => (a, 0))) ∧
    (∀ fasta : String, cleanSeq fasta ≠ [] → (∀ c ∈ cleanSeq fasta, c ∈ aas) →
      ((compute_aa_composition fasta).map Prod.snd).sum = 1) ∧
    compute_aa_composition "AAAC"
      = aas.map (fun a => (a, if a = 'A' then 3/4 else if a = 'C' then 1/4 else 0)) := by
  have htot : ∀ fasta : String,
      ((cleanSeq fasta).dedup.map (fun c => (cleanSeq fasta).count c)).sum
        = (cleanSeq fasta).length := fun fasta =>
    List.sum_map_count_dedup_eq_length (cleanSeq fasta)
  have hmain : ∀ fasta : String, cleanSeq fasta ≠ [] →
      compute_aa_composition fasta
        = aas.map (fun a =>
            (a, ((cleanSeq fasta).count a : ℚ) / ((cleanSeq fasta).length : ℚ))) := by
    intro fasta hne
    have hlen : (cleanSeq fasta).length ≠ 0 := by
      simpa [List.length_eq_zero] using hne
    simp only [compute_aa_composition]
    rw [htot fasta, if_neg hlen]
  refine ⟨hmain, ?_, ?_, by decide⟩
  · intro fasta hempty
    simp only [compute_aa_composition]
    rw [htot fasta, hempty]
    simp
  · intro fasta hne hcov
    rw [hmain fasta hne]
    have hlen : ((cleanSeq fasta).length : ℚ) ≠ 0 := by
      have : (cleanSeq fasta).length ≠ 0 := by
        simpa [List.length_eq_zero] using hne
      exact_mod_cast this
    rw [List.map_map]
    have step : ((fun p : Char × ℚ => p.2) ∘ fun a =>
        (a, ((cleanSeq fasta).count a : ℚ) / ((cleanSeq fasta).length : ℚ)))
        = fun a => ((cleanSeq fasta).count a : ℚ) / ((cleanSeq fasta).length : ℚ) := rfl
    rw [step]
    have hsum : (aas.map
        (fun a => ((cleanSeq fasta).count a : ℚ) / ((cleanSeq fasta).length : ℚ))).sum
        = (aas.map (fun a => ((cleanSeq fasta).count a : ℚ))).sum
          / ((cleanSeq fasta).length : ℚ) := by
      induction aas with
      | nil => simp
      | cons x xs ih => simp [ih, add_div]
    rw [hsum, cast_sum_map_count,
      sum_map_count_eq_length aas (cleanSeq fasta) (by decide) hcov,
      div_self hlen]

/-- C7 witness: the only-standard-letters clause applied at `"AAAC"`. -/
theorem claim_C7_aa_composition_witness :
    ((compute_aa_composition "AAAC").map Prod.snd).sum = 1 :=
  claim_C7_aa_composition.2.2.1 "AAAC" (by decide) (by decide)

/-! ### Quantile Summarizer (callbacks.py, `quant_summary_with_counts`) -/

/-- pandas `Series.quantile(p)` with the default `"linear"` interpolation: sort
the sample, take position `(n - 1) * p`, and interpolate linearly between the
two neighbouring order statistics (`⌊pos⌋` computed as `num / den`, valid since
the position is non-negative). -/
def quantileLinear (l : List ℚ) (p : ℚ) : ℚ :=
  let s := insSort (fun a b => decide (a ≤ b)) l
  let pos := ((s.length : ℚ) - 1) * p
  let i := pos.num.toNat / pos.den
  let frac := pos - (i : ℚ)
  let lo := s.getD i 0
  let hi := s.getD (i + 1) lo
  lo + frac * (hi - lo)

/-- Embedding of `quant_summary_with_counts`: coerce and drop missing values
(`pd.to_numeric(...).dropna()`); an empty sample yields the sentinel
(`"N/A"`, modelled as `none`) with count 0, otherwise the 5% / 50% / 95%
quantiles (the code renders them into a display string) with the sample size. -/
def quant_summary_with_counts (series : List (Option ℚ)) :
    Option (ℚ × ℚ × ℚ) × ℕ :=
  let s := series.filterMap id
  if s.isEmpty then (none, 0)
  else
    (some (quantileLinear s (5/100), quantileLinear s (50/100),
      quantileLinear s (95/100)), s.length)

/-- C8: the empty sequence yields the sentinel `(none, 0)`, distinguishable from
the summary of `[0,0,0]` (which has sample count 3); a non-empty sequence yields
its 5% / 50% / 95% linear-interpolation quantiles with the sample count (e.g.
for `[0,10]`: 0.5, 5, 9.5). -/
theorem claim_C8_quantile_summary :
    (∀ xs : List (Option ℚ), xs.filterMap id = [] →
      quant_summary_with_counts xs = (none, 0)) ∧
    (∀ xs : List (Option ℚ), xs.filterMap id ≠ [] →
      quant_summary_with_counts xs
        = (some (quantileLinear (xs.filterMap id) (5/100),
            quantileLinear (xs.filterMap id) (50/100),
            quantileLinear (xs.filterMap id) (95/100)),
          (xs.filterMap id).length)) ∧
    quant_summary_with_counts [some 0, some 0, some 0] = (some (0, 0, 0), 3) ∧
    quant_summary_with_counts [] = (none, 0) ∧
    quant_summary_with_counts [some 0, some 0, some 0]
      ≠ quant_summary_with_counts [] ∧
    quantileLinear [0, 10] (5/100) = 1/2 ∧
    quantileLinear [0, 10] (50/100) = 5 ∧
    quantileLinear [0, 10] (95/100) = 19/2 := by
  refine ⟨?_, ?_, by decide, by decide, by decide, by decide, by decide, by decide⟩
  · intro xs h
    simp [quant_summary_with_counts, h]
  · intro xs h
    simp [quant_summary_with_counts, List.isEmpty_iff, h]

/-- C8 witness: the non-empty clause applied at the one-point sample `[1]`. -/
theorem claim_C8_quantile_summary_witness :
    quant_summary_with_counts [some (1 : ℚ)] = (some (1, 1, 1), 1) := by
  have h := claim_C8_quantile_summary.2.1 [some (1 : ℚ)] (by decide)
  rw [h]
  decide

/-! ### Co-occurrence Builder (figures.py, `cooccurrence_heatmap_and_topbar`) -/

/-- The co-occurrence subset: rows of `df_all` whose protein occurs in `d_sel`
and whose chemical differs from the selected one (in pandas, a NaN chemical
compares unequal to `selected` and therefore passes this filter). -/
def coSubset (df_all d_sel : List CoRec) (selected : String) : List CoRec :=
  df_all.filter (fun r =>
    (d_sel.map CoRec.protein).contains r.protein && !(r.chem == some selected))

/-- The distinct non-null chemicals of a record set in ascending name order
(pandas `groupby` sorts its keys and drops NaN). -/
def chemKeys (l : List CoRec) : List String :=
  insSort (fun a b => lexLe a.toList b.toList) (l.filterMap CoRec.chem).dedup

/-- Number of records of a record set carrying the given chemical. -/
def recordCount (l : List CoRec) (c : String) : ℕ :=
  (l.filter (fun r => r.chem == some c)).length

/-- Embedding of `counts`: `co_df.groupby(...).size()` then
`sort_values("count", ascending=False)`, determinized as a stable sort (ties
keep the groupby name-ascending order). -/
def countsTable (co : List CoRec) : List (String × ℕ) :=
  insSort (fun x y => decide (y.2 ≤ x.2))
    ((chemKeys co).map (fun c => (c, recordCount co c)))

/-- The ranked chemicals (the `Standardized_Precipitate` column of `counts`). -/
def rankedChems (co : List CoRec) : List String := (countsTable co).map Prod.fst

/-- Embedding of `counts.head(10)`, the data of the top-10 bar figure. -/
def top10Bar (co : List CoRec) : List (String × ℕ) := (countsTable co).take 10

/-- Embedding of `counts["Standardized_Precipitate"].head(min(top_k, len(counts)))`. -/
def topChems (co : List CoRec) (k : ℕ) : List String :=
  (rankedChems co).take (min k (countsTable co).length)

/-- The distinct proteins associated with chemical `c` inside the record set. -/
def distinctProteinsWith (l : List CoRec) (c : String) : List String :=
  ((l.filter (fun r => r.chem == some c)).map CoRec.protein).dedup

/-- The subset restricted to the top-k chemical axis
(`co_df[co_df["Standardized_Precipitate"].isin(top_chems)]`). -/
def coTop (co : List CoRec) (tops : List String) : List CoRec :=
  co.filter (fun r =>
    match r.chem with
    | some c => tops.contains c
    | none => false)

/-- True when the protein-chemical pair occurs at least once in the set. -/
def hasPair (l : List CoRec) (p c : String) : Bool :=
  l.any (fun r => r.protein == p && r.chem == some c)

/-- The de-duplicated binary incidence entry: after
`drop_duplicates(subset=["Protein_ID","Standardized_Precipitate"])`,
`assign(val=1)` and `pivot_table(..., fill_value=0)`, the cell for `(p, c)` is 1
exactly when the pair occurs in the set, else 0. -/
def incidence (l : List CoRec) (p c : String) : ℕ :=
  if hasPair l p c then 1 else 0

/-- The protein axis of the pivot: the distinct proteins of the restricted
subset (the pandas index is sorted, which no claim depends on -- only sums over
this axis are used). -/
def proteinAxis (co : List CoRec) (tops : List String) : List String :=
  ((coTop co tops).map CoRec.protein).dedup

/-- Entry `(ci, cj)` of `X.T @ X` where `X` is the incidence matrix of the
restricted subset: the sum over the protein axis of the product of the two
incidence columns. -/
def co_matEntry (co : List CoRec) (tops : List String) (ci cj : String) : ℕ :=
  ((proteinAxis co tops).map
    (fun p => incidence (coTop co tops) p ci * incidence (coTop co tops) p cj)).sum

theorem hasPair_iff (l : List CoRec) (p c : String) :
    hasPair l p c = true ↔ ∃ r ∈ l, r.protein = p ∧ r.chem = some c := by
  simp [hasPair, List.any_eq_true]

theorem mem_distinctProteinsWith (l : List CoRec) (c p : String) :
    p ∈ distinctProteinsWith l c ↔ ∃ r ∈ l, r.protein = p ∧ r.chem = some c := by
  simp [distinctProteinsWith, List.mem_dedup, List.mem_map, List.mem_filter]
  constructor
  · rintro ⟨r, ⟨hr, hc⟩, hp⟩
    exact ⟨r, hr, hp, hc⟩
  · rintro ⟨r, hr, hp, hc⟩
    exact ⟨r, ⟨hr, hc⟩, hp⟩

theorem mem_coTop (co : List CoRec) (tops : List String) (r : CoRec) :
    r ∈ coTop co tops ↔ r ∈ co ∧ ∃ c, r.chem = some c ∧ c ∈ tops := by
  rw [coTop, List.mem_filter]
  cases hc : r.chem with
  | none => simp [hc]
  | some c => simp [hc, List.contains_eq_any_beq, List.any_eq_true, eq_comm]

theorem mem_proteinAxis (co : List CoRec) (tops : List String) (p : String) :
    p ∈ proteinAxis co tops
      ↔ ∃ r ∈ co, r.protein = p ∧ ∃ c, r.chem = some c ∧ c ∈ tops := by
  simp only [proteinAxis, List.mem_dedup, List.mem_map]
  constructor
  · rintro ⟨r, hr, hp⟩
    obtain ⟨hrco, hc⟩ := (mem_coTop co tops r).mp hr
    exact ⟨r, hrco, hp, hc⟩
  · rintro ⟨r, hrco, hp, hc⟩
    exact ⟨r, (mem_coTop co tops r).mpr ⟨hrco, hc⟩, hp⟩

theorem hasPair_coTop (co : List CoRec) (tops : List String) (p c : String)
    (hc : c ∈ tops) : hasPair (coTop co tops) p c = hasPair co p c := by
  rcases h : hasPair co p c with _ | _
  · rcases h2 : hasPair (coTop co tops) p c with _ | _
    · rfl
    · obtain ⟨r, hr, hp, hcc⟩ := (hasPair_iff _ p c).mp h2
      have hrco : r ∈ co := ((mem_coTop co tops r).mp hr).1
      have : hasPair co p c = true := (hasPair_iff co p c).mpr ⟨r, hrco, hp, hcc⟩
      rw [h] at this
      exact this.symm
  · obtain ⟨r, hr, hp, hcc⟩ := (hasPair_iff co p c).mp h
    have hrt : r ∈ coTop co tops := (mem_coTop co tops r).mpr ⟨hr, c, hcc, hc⟩
    exact ((hasPair_iff _ p c).mpr ⟨r, hrt, hp, hcc⟩).symm ▸ rfl

theorem chemKeys_nodup (l : List CoRec) : (chemKeys l).Nodup :=
  ((insSort_perm _ _).nodup_iff).mpr (l.filterMap CoRec.chem).nodup_dedup

theorem chemKeys_perm (l : List CoRec) :
    (chemKeys l).Perm (l.filterMap CoRec.chem).dedup := insSort_perm _ _

/-- The groupby keys come out pairwise strictly ascending by name. -/
theorem chemKeys_pairwise (l : List CoRec) :
    (chemKeys l).Pairwise (fun a b => lexLt a.toList b.toList = true) := by
  have hle : (chemKeys l).Pairwise
      (fun a b => lexLe a.toList b.toList = true) :=
    insSort_pairwise _ (fun (a b : String) => lexLe_total a.toList b.toList)
      (fun (a b c : String) => lexLe_trans a.toList b.toList c.toList) _
  have hne : (chemKeys l).Pairwise (fun a b => a ≠ b) := chemKeys_nodup l
  refine (hle.and hne).imp ?_
  rintro a b ⟨h1, h2⟩
  exact lexLe_of_ne a.toList b.toList h1
    (fun hc => h2 (String.toList_inj.mp hc))

/-- C1, counterexample. With the selected chemical `"S"`, chemical `"A"`
co-occurs through 3 records of a single protein while `"B"` co-occurs through
2 records of two distinct proteins; the code ranks by record count and so puts
`"A"` first, while ranking by distinct-protein count (as the claim states)
would put `"B"` first. -/
theorem claim_C1_counterexample :
    rankedChems (coSubset
      [⟨"P1", some "S"⟩, ⟨"P2", some "S"⟩, ⟨"P1", some "A"⟩, ⟨"P1", some "A"⟩,
       ⟨"P1", some "A"⟩, ⟨"P1", some "B"⟩, ⟨"P2", some "B"⟩]
      [⟨"P1", some "S"⟩, ⟨"P2", some "S"⟩] "S") = ["A", "B"] ∧
    (distinctProteinsWith (coSubset
      [⟨"P1", some "S"⟩, ⟨"P2", some "S"⟩, ⟨"P1", some "A"⟩, ⟨"P1", some "A"⟩,
       ⟨"P1", some "A"⟩, ⟨"P1", some "B"⟩, ⟨"P2", some "B"⟩]
      [⟨"P1", some "S"⟩, ⟨"P2", some "S"⟩] "S") "A").length = 1 ∧
    (distinctProteinsWith (coSubset
      [⟨"P1", some "S"⟩, ⟨"P2", some "S"⟩, ⟨"P1", some "A"⟩, ⟨"P1", some "A"⟩,
       ⟨"P1", some "A"⟩, ⟨"P1", some "B"⟩, ⟨"P2", some "B"⟩]
      [⟨"P1", some "S"⟩, ⟨"P2", some "S"⟩] "S") "B").length = 2 := by
  refine ⟨?_, by decide, by decide⟩
  decide

/-- C1 (amended): the distinct chemicals of the co-occurrence subset are ranked
by the number of RECORDS carrying each chemical (repeated protein-chemical
pairs counted each time), descending, ties keeping the name-ascending groupby
order (under the stable determinization of `sort_values`); this ranking carries
the correct record counts and determines both the top-10 bar and the `top_k`
chemical axis as its prefixes. -/
theorem claim_C1_amended (df_all d_sel : List CoRec) (selected : String) (k : ℕ) :
    (rankedChems (coSubset df_all d_sel selected)).Perm
      ((coSubset df_all d_sel selected).filterMap CoRec.chem).dedup ∧
    (countsTable (coSubset df_all d_sel selected)).Pairwise
      (fun x y => y.2 < x.2 ∨ (x.2 = y.2 ∧ lexLt x.1.toList y.1.toList = true)) ∧
    (∀ e ∈ countsTable (coSubset df_all d_sel selected),
      e.2 = recordCount (coSubset df_all d_sel selected) e.1 ∧
      e.1 ∈ (coSubset df_all d_sel selected).filterMap CoRec.chem) ∧
    top10Bar (coSubset df_all d_sel selected)
      = (countsTable (coSubset df_all d_sel selected)).take 10 ∧
    topChems (coSubset df_all d_sel selected) k
      = (rankedChems (coSubset df_all d_sel selected)).take
          (min k (countsTable (coSubset df_all d_sel selected)).length) := by
  set co := coSubset df_all d_sel selected with hco
  refine ⟨?_, ?_, ?_, rfl, rfl⟩
  · have h1 : (rankedChems co).Perm
        (((chemKeys co).map (fun c => (c, recordCount co c))).map Prod.fst) :=
      ((insSort_perm _ _).map Prod.fst)
    have h2 : ((chemKeys co).map (fun c => (c, recordCount co c))).map Prod.fst
        = chemKeys co := by
      rw [List.map_map]
      exact List.map_id _
    exact (h2 ▸ h1).trans (chemKeys_perm co)
  · have hbase : ((chemKeys co).map (fun c => (c, recordCount co c))).Pairwise
        (fun x y : String × ℕ => lexLt x.1.toList y.1.toList = true) := by
      rw [List.pairwise_map]
      exact chemKeys_pairwise co
    have := insSort_key_lex (fun p : String × ℕ => p.2)
      (fun x y => lexLt x.1.toList y.1.toList = true) _ hbase
    exact this
  · intro e he
    have he2 : e ∈ (chemKeys co).map (fun c => (c, recordCount co c)) :=
      (insSort_mem _ _ e).mp he
    obtain ⟨c, hc, rfl⟩ := List.mem_map.mp he2
    refine ⟨rfl, ?_⟩
    have : c ∈ (co.filterMap CoRec.chem).dedup :=
      (chemKeys_perm co).mem_iff.mp hc
    exact List.mem_dedup.mp this

/-- C1 witness: the annotation clause of the amended theorem applied to the
counterexample data, where chemical `"A"` is listed with its record count 3. -/
theorem claim_C1_amended_witness :
    recordCount (coSubset
      [⟨"P1", some "S"⟩, ⟨"P2", some "S"⟩, ⟨"P1", some "A"⟩, ⟨"P1", some "A"⟩,
       ⟨"P1", some "A"⟩, ⟨"P1", some "B"⟩, ⟨"P2", some "B"⟩]
      [⟨"P1", some "S"⟩, ⟨"P2", some "S"⟩] "S") "A" = 3 :=
  ((claim_C1_amended
      [⟨"P1", some "S"⟩, ⟨"P2", some "S"⟩, ⟨"P1", some "A"⟩, ⟨"P1", some "A"⟩,
       ⟨"P1", some "A"⟩, ⟨"P1", some "B"⟩, ⟨"P2", some "B"⟩]
      [⟨"P1", some "S"⟩, ⟨"P2", some "S"⟩] "S" 15).2.2.1
    ("A", 3) (by decide)).1.symm

theorem proteinAxis_nodup (co : List CoRec) (tops : List String) :
    (proteinAxis co tops).Nodup := List.nodup_dedup _

theorem distinctProteinsWith_nodup (l : List CoRec) (c : String) :
    (distinctProteinsWith l c).Nodup := List.nodup_dedup _

/-- The transpose-product entry counts the distinct proteins incident to both
chemicals, provided both chemicals belong to the restricted axis. -/
theorem co_matEntry_eq_both (co : List CoRec) (tops : List String)
    (ci cj : String) (hci : ci ∈ tops) (hcj : cj ∈ tops) :
    co_matEntry co tops ci cj
      = ((distinctProteinsWith co ci).filter (fun p => hasPair co p cj)).length := by
  have hterm : ∀ p ∈ proteinAxis co tops,
      incidence (coTop co tops) p ci * incidence (coTop co tops) p cj
        = if (hasPair co p ci && hasPair co p cj) then 1 else 0 := by
    intro p _
    rw [incidence, incidence, hasPair_coTop co tops p ci hci,
      hasPair_coTop co tops p cj hcj]
    cases h1 : hasPair co p ci <;> cases h2 : hasPair co p cj <;> simp
  rw [co_matEntry, List.map_congr_left hterm,
    sum_indicator_eq_length_filter (fun p => hasPair co p ci && hasPair co p cj)
      (proteinAxis co tops)]
  apply List.Perm.length_eq
  apply List.perm_of_nodup_nodup_toFinset_eq
  · exact (proteinAxis_nodup co tops).filter _
  · exact (distinctProteinsWith_nodup co ci).filter _
  · ext p
    simp only [List.mem_toFinset, List.mem_filter, Bool.and_eq_true]
    constructor
    · rintro ⟨_, h1, h2⟩
      obtain ⟨r, hr, hp, hc⟩ := (hasPair_iff co p ci).mp h1
      exact ⟨(mem_distinctProteinsWith co ci p).mpr ⟨r, hr, hp, hc⟩, h2⟩
    · rintro ⟨h1, h2⟩
      obtain ⟨r, hr, hp, hc⟩ := (mem_distinctProteinsWith co ci p).mp h1
      refine ⟨(mem_proteinAxis co tops p).mpr ⟨r, hr, hp, ci, hc, hci⟩, ?_, h2⟩
      exact (hasPair_iff co p ci).mpr ⟨r, hr, hp, hc⟩

/-- C3: over the `top_k` chemical axis the count matrix is the
transpose-product of the de-duplicated binary protein-by-chemical incidence
matrix with itself: it is symmetric, entry `(ci, cj)` counts the distinct
proteins incident to both chemicals (repeated protein-chemical pairs counted
once), and the diagonal entry of a chemical is its distinct-protein count
within the subset. -/
theorem claim_C3_cooccurrence_matrix (df_all d_sel : List CoRec)
    (selected : String) (k : ℕ) (ci cj : String)
    (hci : ci ∈ topChems (coSubset df_all d_sel selected) k)
    (hcj : cj ∈ topChems (coSubset df_all d_sel selected) k) :
    co_matEntry (coSubset df_all d_sel selected)
        (topChems (coSubset df_all d_sel selected) k) ci cj
      = co_matEntry (coSubset df_all d_sel selected)
          (topChems (coSubset df_all d_sel selected) k) cj ci ∧
    co_matEntry (coSubset df_all d_sel selected)
        (topChems (coSubset df_all d_sel selected) k) ci cj
      = ((distinctProteinsWith (coSubset df_all d_sel selected) ci).filter
          (fun p => hasPair (coSubset df_all d_sel selected) p cj)).length ∧
    co_matEntry (coSubset df_all d_sel selected)
        (topChems (coSubset df_all d_sel selected) k) ci ci
      = (distinctProteinsWith (coSubset df_all d_sel selected) ci).length := by
  set co := coSubset df_all d_sel selected with hcodef
  set tops := topChems co k with htopsdef
  refine ⟨?_, co_matEntry_eq_both co tops ci cj hci hcj, ?_⟩
  · rw [co_matEntry, co_matEntry]
    congr 1
    apply List.map_congr_left
    intro p _
    exact Nat.mul_comm _ _
  · rw [co_matEntry_eq_both co tops ci ci hci hci]
    congr 1
    rw [List.filter_eq_self]
    intro p hp
    obtain ⟨r, hr, hpp, hc⟩ := (mem_distinctProteinsWith co ci p).mp hp
    exact (hasPair_iff co p ci).mpr ⟨r, hr, hpp, hc⟩

/-- C3 witness: the matrix theorem applied to a concrete record set whose
axis is `["A", "B"]`; the diagonal of `"A"` is its distinct-protein count. -/
theorem claim_C3_cooccurrence_matrix_witness :
    co_matEntry (coSubset
        [⟨"P1", some "S"⟩, ⟨"P1", some "A"⟩, ⟨"P2", some "S"⟩,
         ⟨"P2", some "A"⟩, ⟨"P2", some "B"⟩, ⟨"P2", some "B"⟩]
        [⟨"P1", some "S"⟩, ⟨"P2", some "S"⟩] "S")
      (topChems (coSubset
        [⟨"P1", some "S"⟩, ⟨"P1", some "A"⟩, ⟨"P2", some "S"⟩,
         ⟨"P2", some "A"⟩, ⟨"P2", some "B"⟩, ⟨"P2", some "B"⟩]
        [⟨"P1", some "S"⟩, ⟨"P2", some "S"⟩] "S") 15) "A" "A"
      = (distinctProteinsWith (coSubset
        [⟨"P1", some "S"⟩, ⟨"P1", some "A"⟩, ⟨"P2", some "S"⟩,
         ⟨"P2", some "A"⟩, ⟨"P2", some "B"⟩, ⟨"P2", some "B"⟩]
        [⟨"P1", some "S"⟩, ⟨"P2", some "S"⟩] "S") "A").length :=
  (claim_C3_cooccurrence_matrix
    [⟨"P1", some "S"⟩, ⟨"P1", some "A"⟩, ⟨"P2", some "S"⟩,
     ⟨"P2", some "A"⟩, ⟨"P2", some "B"⟩, ⟨"P2", some "B"⟩]
    [⟨"P1", some "S"⟩, ⟨"P2", some "S"⟩] "S" 15 "A" "B"
    (by decide) (by decide)).2.2

/-! ### Top-K Aggregator (figures.py, `make_top50_overview`) -/

/-- Round to the nearest integer, halves to the even neighbour (numpy's
rounding mode, idealized over exact rationals). -/
def roundHalfEven (x : ℚ) : ℤ :=
  let f : ℤ := Int.fdiv x.num (x.den : ℤ)
  let frac := x - (f : ℚ)
  if frac < 1/2 then f
  else if 1/2 < frac then f + 1
  else if f % 2 = 0 then f else f + 1

/-- numpy `.round(2)`: round to 2 decimal places, halves to even. -/
def round2 (x : ℚ) : ℚ := ((roundHalfEven (x * 100) : ℤ) : ℚ) / 100

/-- Embedding of `chem_counts` before sorting: groupby on the chemical
(null names dropped, keys ascending), with occurrence count and
distinct-protein count per group. -/
def chemGroups (df : List CoRec) : List (String × ℕ × ℕ) :=
  (chemKeys df).map
    (fun c => (c, recordCount df c, (distinctProteinsWith df c).length))

/-- Embedding of `make_top50_overview`'s data: sort groups by count descending
(stable determinization), annotate with
`percent = (count / max(overall_n, 1) * 100).round(2)`, truncate to 50. -/
def make_top50 (df : List CoRec) : List (String × ℕ × ℕ × ℚ) :=
  ((insSort (fun x y => decide (y.2.1 ≤ x.2.1)) (chemGroups df)).map
    (fun g => (g.1, g.2.1, g.2.2,
      round2 ((g.2.1 : ℚ) / ((max df.length 1 : ℕ) : ℚ) * 100)))).take 50

/-- C9: the overview groups records by chemical name excluding missing names,
ranks groups by count descending with ties name-ascending (stable
determinization of `sort_values`), annotates each group with its count, its
distinct-protein count, and its percentage of the total record count rounded to
2 decimals, and truncates to the top 50; for `[(p1,X),(p2,X),(p3,Y)]`, group X
has count 2, 2 distinct proteins and 66.67 percent, and group Y has count 1, 1
distinct protein and 33.33 percent. -/
theorem claim_C9_top50_overview (df : List CoRec) :
    (make_top50 df).length ≤ 50 ∧
    (make_top50 df).Pairwise
      (fun x y => y.2.1 < x.2.1 ∨ (x.2.1 = y.2.1 ∧ lexLt x.1.toList y.1.toList = true)) ∧
    (∀ e ∈ make_top50 df,
      (∃ r ∈ df, r.chem = some e.1) ∧
      e.2.1 = recordCount df e.1 ∧
      e.2.2.1 = (distinctProteinsWith df e.1).length ∧
      e.2.2.2 = round2 ((recordCount df e.1 : ℚ) / ((max df.length 1 : ℕ) : ℚ) * 100)) ∧
    make_top50 [⟨"p1", some "X"⟩, ⟨"p2", some "X"⟩, ⟨"p3", some "Y"⟩]
      = [("X", 2, 2, 6667/100), ("Y", 1, 1, 3333/100)] := by
  refine ⟨?_, ?_, ?_, by decide⟩
  · exact le_trans (List.length_take_le 50 _) (le_refl 50)
  · have hbase : (chemGroups df).Pairwise
        (fun x y : String × ℕ × ℕ => lexLt x.1.toList y.1.toList = true) := by
      rw [chemGroups, List.pairwise_map]
      exact chemKeys_pairwise df
    have hsorted := insSort_key_lex (fun g : String × ℕ × ℕ => g.2.1)
      (fun x y => lexLt x.1.toList y.1.toList = true) _ hbase
    have hmap : ((insSort (fun x y => decide (y.2.1 ≤ x.2.1)) (chemGroups df)).map
        (fun g => (g.1, g.2.1, g.2.2,
          round2 ((g.2.1 : ℚ) / ((max df.length 1 : ℕ) : ℚ) * 100)))).Pairwise
        (fun x y => y.2.1 < x.2.1 ∨ (x.2.1 = y.2.1 ∧ lexLt x.1.toList y.1.toList = true)) := by
      rw [List.pairwise_map]
      exact hsorted.imp (fun h => h)
    exact hmap.sublist (List.take_sublist 50 _)
  · intro e he
    rw [make_top50] at he
    have he2 := List.mem_of_mem_take he
    obtain ⟨g, hg, rfl⟩ := List.mem_map.mp he2
    have hg2 : g ∈ chemGroups df := (insSort_mem _ _ g).mp hg
    rw [chemGroups] at hg2
    obtain ⟨c, hc, rfl⟩ := List.mem_map.mp hg2
    have hmem : c ∈ (df.filterMap CoRec.chem).dedup :=
      (chemKeys_perm df).mem_iff.mp hc
    have hmem2 : c ∈ df.filterMap CoRec.chem := List.mem_dedup.mp hmem
    obtain ⟨r, hr, hrc⟩ := List.mem_filterMap.mp hmem2
    exact ⟨⟨r, hr, hrc⟩, rfl, rfl, rfl⟩

/-- C9 witness: the annotation clause applied at the three-record example. -/
theorem claim_C9_top50_overview_witness :
    recordCount [⟨"p1", some "X"⟩, ⟨"p2", some "X"⟩, ⟨"p3", some "Y"⟩] "X" = 2 :=
  (((claim_C9_top50_overview
      [⟨"p1", some "X"⟩, ⟨"p2", some "X"⟩, ⟨"p3", some "Y"⟩]).2.2.1
    ("X", 2, 2, 6667/100) (by decide)).2.1).symm

/-! ### Density Estimator (figures.py, `kde_curve`)

The KDE works on floats with `exp`, `sqrt` and fractional powers, so this part
of the embedding lives in `ℝ` (and is necessarily noncomputable); a NaN entry
of the input array is modelled as `none`. -/

noncomputable section
open scoped Classical

/-- The sample mean (`np.mean`, as used inside `np.std`). -/
def rmean (l : List ℝ) : ℝ := l.sum / l.length

/-- The population variance. -/
def popVar (l : List ℝ) : ℝ := (l.map (fun x => (x - rmean l) ^ 2)).sum / l.length

/-- Embedding of `np.std`: the population standard deviation (ddof = 0). -/
def popStd (l : List ℝ) : ℝ := Real.sqrt (popVar l)

/-- Embedding of `np.min` on a non-empty array (0 on the empty list, never used there). -/
def listMin : List ℝ → ℝ
  | [] => 0
  | x :: xs => xs.foldl min x

/-- Embedding of `np.max` on a non-empty array. -/
def listMax : List ℝ → ℝ
  | [] => 0
  | x :: xs => xs.foldl max x

/-- Embedding of `np.linspace(a, b, num)`: `num` evenly spaced points from `a` to `b`
inclusive; `[a]` when `num = 1`, empty when `num = 0`. -/
def linspace (a b : ℝ) (num : ℕ) : List ℝ :=
  if num = 1 then [a]
  else (List.range num).map (fun i : ℕ => a + (b - a) * (i : ℝ) / ((num : ℝ) - 1))

/-- Silverman bandwidth `h = 1.06 * std * n ** (-1/5)`. -/
def bandwidth (l : List ℝ) : ℝ :=
  1.06 * popStd l * (l.length : ℝ) ^ ((-1 : ℝ) / 5)

/-- One Gaussian kernel cell
`np.exp(-0.5 * (diff / h) ** 2) / (np.sqrt(2 * np.pi) * h)`. -/
def gaussTerm (h g x : ℝ) : ℝ :=
  Real.exp (-(0.5) * ((g - x) / h) ^ 2) / (Real.sqrt (2 * Real.pi) * h)

/-- Embedding of `kde_curve`: drop NaN entries; with fewer than 2 points or a
zero standard deviation return the empty signal `(None, None)` (here `none`);
otherwise return the grid over `[min, max]` and the row means of the kernel
matrix (`kernel.mean(axis=1)`). -/
def kde_curve (xs : List (Option ℝ)) (points : ℕ) : Option (List ℝ × List ℝ) :=
  let x := xs.filterMap id
  if x.length < 2 then none
  else if popStd x = 0 then none
  else
    let h := bandwidth x
    let grid := linspace (listMin x) (listMax x) points
    some (grid, grid.map (fun g => (x.map (fun xi => gaussTerm h g xi)).sum / x.length))

theorem linspace_length (a b : ℝ) (num : ℕ) : (linspace a b num).length = num := by
  by_cases h : num = 1
  · rw [linspace, if_pos h, h, List.length_singleton]
  · rw [linspace, if_neg h, List.length_map, List.length_range]

theorem linspace_getD (a b : ℝ) (num i : ℕ) (hnum : num ≠ 1) (hi : i < num) :
    (linspace a b num).getD i 0 = a + (b - a) * (i : ℝ) / ((num : ℝ) - 1) := by
  have hlen : i < (linspace a b num).length := by rw [linspace_length]; exact hi
  rw [List.getD_eq_getElem _ _ hlen]
  simp only [linspace, if_neg hnum, List.getElem_map, List.getElem_range]

theorem bandwidth_pos (l : List ℝ) (h2 : 2 ≤ l.length) (hstd : popStd l ≠ 0) :
    0 < bandwidth l := by
  have h1 : 0 < popStd l :=
    lt_of_le_of_ne (Real.sqrt_nonneg _) (Ne.symm hstd)
  have h3 : (0 : ℝ) < (l.length : ℝ) := by
    have : 0 < l.length := lt_of_lt_of_le (by norm_num) h2
    exact_mod_cast this
  have h4 : (0 : ℝ) < (l.length : ℝ) ^ ((-1 : ℝ) / 5) :=
    Real.rpow_pos_of_pos h3 _
  have h5 : (0 : ℝ) < 1.06 := by norm_num
  exact mul_pos (mul_pos h5 h1) h4

theorem gaussTerm_nonneg (h g x : ℝ) (hh : 0 < h) : 0 ≤ gaussTerm h g x := by
  apply div_nonneg (le_of_lt (Real.exp_pos _))
  have : (0 : ℝ) < Real.sqrt (2 * Real.pi) :=
    Real.sqrt_pos.mpr (by positivity)
  positivity

/-- C5: the estimator first drops the non-finite (NaN) entries and returns the
empty curve exactly when fewer than 2 points remain or the population standard
deviation is exactly 0; in particular a sample of identical values yields the
empty curve. Being a total function, it never raises. -/
theorem claim_C5_kde_insufficient_data (xs : List (Option ℝ)) (points : ℕ) :
    (kde_curve xs points = none ↔
      (xs.filterMap id).length < 2 ∨ popStd (xs.filterMap id) = 0) ∧
    ((∀ a ∈ xs.filterMap id, ∀ b ∈ xs.filterMap id, a = b) →
      kde_curve xs points = none) := by
  have hiff : kde_curve xs points = none ↔
      (xs.filterMap id).length < 2 ∨ popStd (xs.filterMap id) = 0 := by
    by_cases h1 : (xs.filterMap id).length < 2
    · simp [kde_curve, h1]
    · by_cases h2 : popStd (xs.filterMap id) = 0
      · simp [kde_curve, h1, h2]
      · simp [kde_curve, h1, h2]
  refine ⟨hiff, ?_⟩
  intro hid
  rcases lt_or_le (xs.filterMap id).length 2 with hlen | hlen
  · exact hiff.mpr (Or.inl hlen)
  · refine hiff.mpr (Or.inr ?_)
    set l := xs.filterMap id with hl
    obtain ⟨x0, rest, hcons⟩ : ∃ x0 rest, l = x0 :: rest := by
      cases hc : l with
      | nil => rw [hc] at hlen; simp at hlen
      | cons y ys => exact ⟨y, ys, rfl⟩
    have hall : ∀ a ∈ l, a = x0 := by
      intro a ha
      exact hid a ha x0 (by rw [hcons]; exact List.mem_cons_self x0 rest)
    have hlen0 : l.length ≠ 0 := by
      intro hc
      rw [hc] at hlen
      norm_num at hlen
    have hsum : l.sum = (l.length : ℝ) * x0 := by
      have := List.sum_eq_card_nsmul l x0 hall
      simpa [nsmul_eq_mul] using this
    have hmean : rmean l = x0 := by
      rw [rmean, hsum, mul_comm, mul_div_assoc, div_self (by exact_mod_cast hlen0),
        mul_one]
    have hvar : popVar l = 0 := by
      rw [popVar]
      have hz : l.map (fun x => (x - rmean l) ^ 2) = l.map (fun _ => (0 : ℝ)) := by
        apply List.map_congr_left
        intro a ha
        rw [hmean, hall a ha]
        ring
      rw [hz]
      simp
    rw [popStd, hvar, Real.sqrt_zero]

/-- C5 witness: the all-identical clause applied to the sample `[3, 3]`. -/
theorem claim_C5_kde_insufficient_data_witness :
    kde_curve [some (3 : ℝ), some 3] 200 = none := by
  apply (claim_C5_kde_insufficient_data [some (3 : ℝ), some 3] 200).2
  intro a ha b hb
  simp at ha hb
  rw [ha, hb]

theorem popStd_zero_one : popStd [(0 : ℝ), 1] = 1 / 2 := by
  have hmean : rmean [(0 : ℝ), 1] = 1 / 2 := by
    rw [rmean]
    norm_num
  have hvar : popVar [(0 : ℝ), 1] = 1 / 4 := by
    rw [popVar, hmean]
    norm_num
  rw [popStd, hvar, show (1 / 4 : ℝ) = (1 / 2) ^ 2 by norm_num,
    Real.sqrt_sq (by norm_num)]

/-- C4, counterexample. The claim quantifies over every requested resolution,
but at resolution 1 the grid degenerates to the single point `[min]`
(`np.linspace(a, b, 1)` is `[a]`), which does not span `[min, max]` when
`min < max`: for the sample `[0, 1]` the grid is `[0]` while the maximum is 1. -/
theorem claim_C4_counterexample :
    (kde_curve [some (0 : ℝ), some 1] 1).map Prod.fst = some [0] ∧
    listMax (([some (0 : ℝ), some 1] : List (Option ℝ)).filterMap id) = 1 ∧
    (0 : ℝ) ≠ 1 := by
  have hfm : ([some (0 : ℝ), some 1] : List (Option ℝ)).filterMap id = [0, 1] := by
    simp
  refine ⟨?_, by rw [hfm]; simp [listMax], by norm_num⟩
  have h1 : ¬ (([some (0 : ℝ), some 1] : List (Option ℝ)).filterMap id).length < 2 := by
    rw [hfm]
    norm_num
  have h2 : ¬ popStd (([some (0 : ℝ), some 1] : List (Option ℝ)).filterMap id) = 0 := by
    rw [hfm, popStd_zero_one]
    norm_num
  rw [kde_curve]
  simp only [if_neg h1, if_neg h2, Option.map_some]
  rw [hfm]
  have hmin : listMin [(0 : ℝ), 1] = 0 := by simp [listMin]
  have hmax : listMax [(0 : ℝ), 1] = 1 := by simp [listMax]
  rw [hmin, hmax, linspace, if_pos rfl]
  rfl

/-- C4 (amended): for a sample of at least 2 finite points with nonzero
population standard deviation and any requested resolution of AT LEAST 2
(default 200; at resolutions 0 and 1 the grid degenerates), the KDE returns a
grid of exactly that many points, starting at the sample minimum, ending at the
sample maximum, with constant spacing `(max - min)/(p - 1)`; at each grid point
the density is the average (not the sum) over the sample of
`exp(-0.5 ((g - x_i)/h)^2) / (sqrt(2 pi) h)` with
`h = 1.06 * std * n^(-1/5)`; and all density values are non-negative. -/
theorem claim_C4_amended (xs : List (Option ℝ)) (p : ℕ) (hp : 2 ≤ p)
    (h2 : 2 ≤ (xs.filterMap id).length)
    (hstd : popStd (xs.filterMap id) ≠ 0) :
    ∃ grid dens, kde_curve xs p = some (grid, dens) ∧
      grid.length = p ∧ dens.length = p ∧
      grid.head? = some (listMin (xs.filterMap id)) ∧
      grid.getLast? = some (listMax (xs.filterMap id)) ∧
      (∀ i, i + 1 < p →
        grid.getD (i + 1) 0 - grid.getD i 0
          = (listMax (xs.filterMap id) - listMin (xs.filterMap id)) / ((p : ℝ) - 1)) ∧
      (∀ i, i < p →
        dens.getD i 0
          = ((xs.filterMap id).map (fun xi =>
              Real.exp (-(0.5) * ((grid.getD i 0 - xi)
                  / (1.06 * popStd (xs.filterMap id)
                    * ((xs.filterMap id).length : ℝ) ^ ((-1 : ℝ) / 5))) ^ 2)
                / (Real.sqrt (2 * Real.pi)
                  * (1.06 * popStd (xs.filterMap id)
                    * ((xs.filterMap id).length : ℝ) ^ ((-1 : ℝ) / 5))))).sum
            / ((xs.filterMap id).length : ℝ)) ∧
      (∀ d ∈ dens, 0 ≤ d) := by
  set x := xs.filterMap id with hx
  have hnotlt : ¬ (x.length < 2) := not_lt.mpr h2
  have hp1 : p ≠ 1 := by omega
  have hp0 : 0 < p := by omega
  have hpd : ((p : ℝ) - 1) ≠ 0 := by
    have : (2 : ℝ) ≤ (p : ℝ) := by exact_mod_cast hp
    linarith
  have heq : kde_curve xs p = some (linspace (listMin x) (listMax x) p,
      (linspace (listMin x) (listMax x) p).map
        (fun g => (x.map (fun xi => gaussTerm (bandwidth x) g xi)).sum / x.length)) := by
    simp only [kde_curve, ← hx]
    rw [if_neg hnotlt, if_neg hstd]
  have hlen : (linspace (listMin x) (listMax x) p).length = p := linspace_length _ _ _
  refine ⟨linspace (listMin x) (listMax x) p, _, heq, hlen, ?_, ?_, ?_, ?_, ?_, ?_⟩
  · rw [List.length_map, hlen]
  · have h0 : 0 < (linspace (listMin x) (listMax x) p).length := by
      rw [hlen]; exact hp0
    rw [List.head?_eq_getElem?, List.getElem?_eq_getElem h0,
      ← List.getD_eq_getElem _ 0 h0, linspace_getD _ _ _ _ hp1 hp0]
    norm_num
  · have hidx : p - 1 < (linspace (listMin x) (listMax x) p).length := by
      rw [hlen]; omega
    rw [List.getLast?_eq_getElem?, hlen, List.getElem?_eq_getElem (by rw [hlen]; omega),
      ← List.getD_eq_getElem _ 0 (by rw [hlen]; omega),
      linspace_getD _ _ _ _ hp1 (by omega)]
    have hcast : (((p - 1 : ℕ)) : ℝ) = (p : ℝ) - 1 := by
      have h1p : 1 ≤ p := by omega
      push_cast [Nat.cast_sub h1p]
      ring
    rw [hcast, mul_div_assoc, div_self hpd, mul_one]
    congr 1
    ring
  · intro i hi
    rw [linspace_getD _ _ _ _ hp1 hi, linspace_getD _ _ _ _ hp1 (by omega)]
    push_cast
    field_simp
    ring
  · intro i hi
    have hilen : i < ((linspace (listMin x) (listMax x) p).map
        (fun g => (x.map (fun xi => gaussTerm (bandwidth x) g xi)).sum / x.length)).length := by
      rw [List.length_map, hlen]; exact hi
    have hgl : i < (linspace (listMin x) (listMax x) p).length := by
      rw [hlen]; exact hi
    rw [List.getD_eq_getElem _ 0 hilen, List.getElem_map,
      ← List.getD_eq_getElem _ 0 hgl]
    simp only [gaussTerm, bandwidth]
  · intro d hd
    obtain ⟨g, _, rfl⟩ := List.mem_map.mp hd
    apply div_nonneg
    · apply List.sum_nonneg
      intro t ht
      obtain ⟨xi, _, rfl⟩ := List.mem_map.mp ht
      exact gaussTerm_nonneg _ g xi (bandwidth_pos x h2 hstd)
    · exact Nat.cast_nonneg _

/-- C4 witness: the amended theorem applied to the sample `[0, 1]` at
resolution 2 yields a curve whose grid has exactly 2 points. -/
theorem claim_C4_amended_witness :
    (kde_curve [some (0 : ℝ), some 1] 2).map (fun r => r.1.length) = some 2 := by
  have hfm : ([some (0 : ℝ), some 1] : List (Option ℝ)).filterMap id = [0, 1] := by
    simp
  obtain ⟨grid, dens, heq, hlen, _⟩ :=
    claim_C4_amended [some (0 : ℝ), some 1] 2 (by norm_num)
      (by rw [hfm]; norm_num) (by rw [hfm, popStd_zero_one]; norm_num)
  rw [heq]
  simp [hlen]

end

end CrystEDA
